import Mathlib

/-!
Verification of the message delivery pipeline of the goDiscordChatter bot.

Strings are modelled at the unit (character) level as `List Char`; Go `len`
is modelled as `List.length`.  Durations are modelled in nanoseconds as `Nat`,
exactly as Go's `time.Duration` counts them (the Go values never approach the
`int64` range for realistic chunk lengths, so `Nat` arithmetic coincides).

The embedded functions come from:
  * `internal/bot/constants.go` — the delay/length constants;
  * `internal/bot/formatting.go` — `sendLongResponse`, `sendChunkWithDelay`,
    `calculateTypingDelay`, `fallbackChunking`, `splitLongChunk`;
  * `internal/ai/client.go` — `SuggestMessageBreaks`, `parseMessageBreaks`,
    `fallbackMessageBreaks`.
-/

set_option maxRecDepth 100000

/-- Platform message length limit: `MaxDiscordMessageLength = 2000` from
`internal/bot/constants.go`. -/
def MaxDiscordMessageLength : Nat := 2000

/-- Minimum delay between message chunks: `MinMessageDelay = 5000 ms`, in nanoseconds. -/
def MinMessageDelay : Nat := 5000000000

/-- Maximum delay between message chunks: `MaxMessageDelay = 8000 ms`, in nanoseconds. -/
def MaxMessageDelay : Nat := 8000000000

/-- Typing speed constant: `TypingSpeed = 50 ms` per character, in nanoseconds. -/
def TypingSpeed : Nat := 50000000

/-- Unicode white-space test used by Go's `strings.TrimSpace` (`unicode.IsSpace`):
the characters with the Unicode `White_Space` property. -/
def isGoSpace (c : Char) : Bool :=
  let n := c.toNat
  n == 0x20 || n == 0x9 || n == 0xA || n == 0xB || n == 0xC || n == 0xD ||
  n == 0x85 || n == 0xA0 || n == 0x1680 ||
  (decide (0x2000 ≤ n) && decide (n ≤ 0x200A)) ||
  n == 0x2028 || n == 0x2029 || n == 0x202F || n == 0x205F || n == 0x3000

/-- Drop the leading white space of a string (left half of `strings.TrimSpace`). -/
def trimLeft (s : List Char) : List Char := s.dropWhile isGoSpace

/-- Drop the trailing white space of a string (right half of `strings.TrimSpace`). -/
def trimRight (s : List Char) : List Char := (s.reverse.dropWhile isGoSpace).reverse

/-- Go `strings.TrimSpace` at the unit level: drop white space from both ends. -/
def trimSpace (s : List Char) : List Char := trimRight (trimLeft s)

/-- The paragraph separator `"\n\n"` used by the fallback splitters. -/
def doubleNewline : List Char := ['\n', '\n']

/-- Scanner for Go `strings.Split(s, "\n\n")`: cut at each leftmost,
non-overlapping occurrence of the two-newline separator.  `acc` holds the
characters of the current piece in reverse. -/
def splitNN : List Char → List Char → List (List Char)
  | [], acc => [acc.reverse]
  | [c], acc => [(c :: acc).reverse]
  | c₁ :: c₂ :: rest, acc =>
    if c₁ = '\n' ∧ c₂ = '\n' then
      acc.reverse :: splitNN rest []
    else
      splitNN (c₂ :: rest) (c₁ :: acc)

/-- Go `strings.Split(message, "\n\n")`. -/
def splitParagraphs (s : List Char) : List (List Char) := splitNN s []

/-- The reserved delimiter `"<<<BREAK>>>"` of the AI-assisted segmentation. -/
def BREAK : List Char := ['<', '<', '<', 'B', 'R', 'E', 'A', 'K', '>', '>', '>']

/-- Scanner for Go `strings.Split(response, "<<<BREAK>>>")`: cut at each
leftmost, non-overlapping occurrence of the delimiter. -/
def splitBreak : List Char → List Char → List (List Char)
  | '<' :: '<' :: '<' :: 'B' :: 'R' :: 'E' :: 'A' :: 'K' :: '>' :: '>' :: '>' :: rest, acc =>
    acc.reverse :: splitBreak rest []
  | c :: rest, acc => splitBreak rest (c :: acc)
  | [], acc => [acc.reverse]

/-- Go `strings.Split(response, "<<<BREAK>>>")`. -/
def splitOnBreak (s : List Char) : List (List Char) := splitBreak s []

/-- Join a list of chunks with the paragraph separator.  Specification-side
companion of the `currentChunk += "\n\n" + para` accumulation. -/
def joinSep : List (List Char) → List Char
  | [] => []
  | [c] => c
  | c :: cs => c ++ doubleNewline ++ joinSep cs

/-- Loop body shared by `fallbackMessageBreaks` (`internal/ai/client.go`) and
`fallbackChunking` (`internal/bot/formatting.go`): the state is the pair
(closed chunks, current running chunk).  Mirrors, in order: the
`strings.TrimSpace(para)` + empty-skip, the overflow test
`len(currentChunk) > 0 && len(currentChunk)+len(para)+2 > 800`, and the two
accumulation branches. -/
def fbStep (st : List (List Char) × List Char) (para : List Char) :
    List (List Char) × List Char :=
  let p := trimSpace para
  if p = [] then st
  else if st.2 ≠ [] ∧ 800 < st.2.length + p.length + 2 then
    (st.1 ++ [trimSpace st.2], p)
  else if st.2 ≠ [] then
    (st.1, st.2 ++ doubleNewline ++ p)
  else
    (st.1, p)

/-- Closing step of the fallback splitters: append the pending running chunk,
trimmed, when it is non-empty. -/
def withCur (chunks : List (List Char)) (cur : List Char) : List (List Char) :=
  if cur ≠ [] then chunks ++ [trimSpace cur] else chunks

/-- Go `fallbackMessageBreaks` (`internal/ai/client.go`): split on paragraph
separators, greedily accumulate trimmed non-empty paragraphs into chunks of at
most 800 units, and return the original message when at most one chunk
results. -/
def fallbackMessageBreaks (message : List Char) : List (List Char) :=
  let st := (splitParagraphs message).foldl fbStep ([], [])
  let chunks := withCur st.1 st.2
  if chunks.length ≤ 1 then [message] else chunks

/-- Go `fallbackChunking` (`internal/bot/formatting.go`); its body is
line-for-line identical to `fallbackMessageBreaks`. -/
def fallbackChunking (response : List Char) : List (List Char) :=
  fallbackMessageBreaks response

/-- Go `splitLongChunk` (`internal/bot/formatting.go`): slice a chunk into
consecutive pieces of exactly `MaxDiscordMessageLength` units, the final piece
possibly shorter; an empty chunk yields no pieces (the Go loop body never
runs). -/
def splitLongChunk (chunk : List Char) : List (List Char) :=
  if h : chunk = [] then []
  else
    chunk.take MaxDiscordMessageLength ::
      splitLongChunk (chunk.drop MaxDiscordMessageLength)
termination_by chunk.length
decreasing_by
  have hpos : 0 < chunk.length := List.length_pos.mpr h
  simp only [List.length_drop, MaxDiscordMessageLength]
  omega

/-- Length-enforcement step of `sendLongResponse` (`internal/bot/formatting.go`):
each chunk over the platform limit is replaced by its `splitLongChunk` slices,
every other chunk passes through unchanged. -/
def lengthEnforcer (chunks : List (List Char)) : List (List Char) :=
  (chunks.map fun c =>
    if MaxDiscordMessageLength < c.length then splitLongChunk c else [c]).flatten

/-- Go `calculateTypingDelay` (`internal/bot/formatting.go`), in nanoseconds:
`typingTime := time.Duration(len(chunk)) * TypingSpeed / 80`,
`delay := MinMessageDelay + typingTime`, capped at `MaxMessageDelay`. -/
def calculateTypingDelay (chunk : List Char) : Nat :=
  let typingTime := chunk.length * TypingSpeed / 80
  let delay := MinMessageDelay + typingTime
  if MaxMessageDelay < delay then MaxMessageDelay else delay

/-- One scheduled send of `sendChunkWithDelay`: the chunk, the artificial delay
slept before the send (nanoseconds), and whether the typing indicator is shown
during the delay. -/
structure PlanEntry where
  chunk : List Char
  delay : Nat
  typing : Bool
  deriving DecidableEq, Repr

/-- Model of one call `sendChunkWithDelay(ctx, channelID, chunk, addDelay)`:
with `addDelay` the code sleeps `calculateTypingDelay(chunk)` and runs the
typing-indicator refresher; without it the chunk is sent immediately with no
typing indicator. -/
def sendChunkEntry (chunk : List Char) (addDelay : Bool) : PlanEntry :=
  { chunk := chunk
    delay := if addDelay then calculateTypingDelay chunk else 0
    typing := addDelay }

/-- Inner loop of `sendLongResponse` over the slices of an oversized chunk:
slice `j` of outer chunk `i` is sent with `addDelay = (i > 0 || j > 0)`, so
`first` here is `i > 0` for the slice with `j = 0` and `true` afterwards. -/
def splitLongChunkPlan (first : Bool) : List (List Char) → List PlanEntry
  | [] => []
  | s :: ss => sendChunkEntry s first :: splitLongChunkPlan true ss

/-- Outer loop of `sendLongResponse` (`internal/bot/formatting.go`): chunk `i`
is sent with `addDelay = (i > 0)`; an oversized chunk is first split by
`splitLongChunk`.  The flag is `i > 0` for the head chunk and `true` for every
later one. -/
def sendLongResponsePlanAux (first : Bool) : List (List Char) → List PlanEntry
  | [] => []
  | chunk :: rest =>
    (if MaxDiscordMessageLength < chunk.length then
       splitLongChunkPlan first (splitLongChunk chunk)
     else [sendChunkEntry chunk first]) ++ sendLongResponsePlanAux true rest

/-- Delivery plan produced by `sendLongResponse` for a segmented chunk list. -/
def sendLongResponsePlan (chunks : List (List Char)) : List PlanEntry :=
  sendLongResponsePlanAux false chunks

/-- Go `parseMessageBreaks` (`internal/ai/client.go`): split the provider
response on the reserved delimiter, trim every piece, keep the pieces that are
non-empty and at most 2000 units, and fall back to `fallbackMessageBreaks` on
the original message when at most one piece remains. -/
def parseMessageBreaks (response originalMessage : List Char) : List (List Char) :=
  let parts := splitOnBreak response
  let chunks := (parts.map trimSpace).filter fun c =>
    decide (c ≠ []) && decide (c.length ≤ 2000)
  if chunks.length ≤ 1 then fallbackMessageBreaks originalMessage else chunks

/-- Specification-side restatement of the piece pipeline of
`parseMessageBreaks`: the trimmed split pieces that survive the
empty-or-over-2000 drop. -/
def keptPieces (response : List Char) : List (List Char) :=
  ((splitOnBreak response).map trimSpace).filter fun c =>
    decide (c ≠ []) && decide (c.length ≤ 2000)

/-- Go `SuggestMessageBreaks` (`internal/ai/client.go`).  The provider call
(`askGrok`) is abstracted by its outcome `providerResponse`: `none` models any
failed call (transport error, non-success status, malformed payload — every
case in which `askGrok` returns a non-nil error), `some r` a raw response
text.  The result is the returned chunk list, the returned `error` value, and
whether a provider call occurred. -/
def SuggestMessageBreaks (providerResponse : Option (List Char)) (message : List Char) :
    List (List Char) × Option Unit × Bool :=
  if message.length ≤ 500 then ([message], none, false)
  else
    match providerResponse with
    | none => (fallbackMessageBreaks message, none, true)
    | some response => (parseMessageBreaks response message, none, true)

/-- Delivery loop of `sendLongResponse`: one `ChannelMessageSend` attempt per
plan entry.  The gateway outcome of the `i`-th send is given by the oracle
`sendErr` (`some ()` models a non-nil error, which the code only logs).
Returns the trace of attempted sends with their outcomes. -/
def runDelivery (sendErr : Nat → Option Unit) : Nat → List PlanEntry → List (List Char × Option Unit)
  | _, [] => []
  | i, e :: rest => (e.chunk, sendErr i) :: runDelivery sendErr (i + 1) rest

/-- Full delivery of a segmented chunk list: the attempt trace plus the value
`sendLongResponse` hands back to its caller.  The Go function has no return
value and never re-raises a send error, so that value is `none`. -/
def sendLongResponseRun (sendErr : Nat → Option Unit) (chunks : List (List Char)) :
    List (List Char × Option Unit) × Option Unit :=
  (runDelivery sendErr 0 (sendLongResponsePlan chunks), none)

/-- Specification-side: the whitespace-trimmed non-empty paragraphs of a
reply, in order. -/
def goodParas (msg : List Char) : List (List Char) :=
  ((splitParagraphs msg).map trimSpace).filter fun p => decide (p ≠ [])

/-! ### Length Enforcer (C1) -/

theorem splitLongChunk_flatten_aux (n : Nat) :
    ∀ chunk : List Char, chunk.length ≤ n →
      (splitLongChunk chunk).flatten = chunk := by
  induction n with
  | zero =>
    intro chunk h
    have hchunk : chunk = [] := List.eq_nil_of_length_eq_zero (Nat.le_zero.mp h)
    subst hchunk
    simp [splitLongChunk]
  | succ n ih =>
    intro chunk h
    rw [splitLongChunk]
    split
    · simp [*]
    · rename_i hne
      have hpos : 0 < chunk.length := List.length_pos.mpr hne
      rw [List.flatten_cons,
        ih (chunk.drop MaxDiscordMessageLength)
          (by simp only [List.length_drop, MaxDiscordMessageLength]; omega),
        List.take_append_drop]

theorem splitLongChunk_flatten (chunk : List Char) :
    (splitLongChunk chunk).flatten = chunk :=
  splitLongChunk_flatten_aux chunk.length chunk (Nat.le_refl _)

theorem splitLongChunk_length_le_aux (n : Nat) :
    ∀ chunk : List Char, chunk.length ≤ n →
      ∀ p ∈ splitLongChunk chunk, p.length ≤ MaxDiscordMessageLength := by
  induction n with
  | zero =>
    intro chunk h
    have hchunk : chunk = [] := List.eq_nil_of_length_eq_zero (Nat.le_zero.mp h)
    subst hchunk
    simp [splitLongChunk]
  | succ n ih =>
    intro chunk h
    rw [splitLongChunk]
    split
    · simp
    · rename_i hne
      have hpos : 0 < chunk.length := List.length_pos.mpr hne
      intro p hp
      rcases List.mem_cons.mp hp with rfl | hp
      · simp only [List.length_take]
        omega
      · exact ih (chunk.drop MaxDiscordMessageLength)
          (by simp only [List.length_drop, MaxDiscordMessageLength]; omega) p hp

theorem splitLongChunk_length_le (chunk : List Char) :
    ∀ p ∈ splitLongChunk chunk, p.length ≤ MaxDiscordMessageLength :=
  splitLongChunk_length_le_aux chunk.length chunk (Nat.le_refl _)

/-- C1: the length-enforcement step of `sendLongResponse` (pass-through for
chunks of length at most 2000, `splitLongChunk` slicing for longer ones)
returns a sequence in which every element's length is at most 2000 and whose
in-order concatenation equals the concatenation of the input sequence, so no
content is lost or reordered. -/
theorem lengthEnforcer_sound (chunks : List (List Char)) :
    (∀ p ∈ lengthEnforcer chunks, p.length ≤ MaxDiscordMessageLength) ∧
    (lengthEnforcer chunks).flatten = chunks.flatten := by
  induction chunks with
  | nil => simp [lengthEnforcer]
  | cons c cs ih =>
    have hstep : lengthEnforcer (c :: cs)
        = (if MaxDiscordMessageLength < c.length then splitLongChunk c else [c])
          ++ lengthEnforcer cs := by
      simp [lengthEnforcer]
    constructor
    · intro p hp
      rw [hstep] at hp
      rcases List.mem_append.mp hp with hl | hr
      · by_cases hc : MaxDiscordMessageLength < c.length
        · rw [if_pos hc] at hl
          exact splitLongChunk_length_le c p hl
        · rw [if_neg hc] at hl
          simp only [List.mem_singleton] at hl
          subst hl
          exact Nat.le_of_not_lt hc
      · exact ih.1 p hr
    · rw [hstep, List.flatten_append, List.flatten_cons, ih.2]
      by_cases hc : MaxDiscordMessageLength < c.length
      · rw [if_pos hc, splitLongChunk_flatten]
      · rw [if_neg hc]
        simp

/-! ### Pacing (C3) -/

theorem calculateTypingDelay_clamp (chunk : List Char) :
    calculateTypingDelay chunk
      = max MinMessageDelay (min MaxMessageDelay
          (MinMessageDelay + chunk.length * TypingSpeed / 80)) ∧
    MinMessageDelay ≤ calculateTypingDelay chunk ∧
    calculateTypingDelay chunk ≤ MaxMessageDelay := by
  have h : calculateTypingDelay chunk
      = if MaxMessageDelay < MinMessageDelay + chunk.length * TypingSpeed / 80
        then MaxMessageDelay
        else MinMessageDelay + chunk.length * TypingSpeed / 80 := rfl
  simp only [h, MinMessageDelay, MaxMessageDelay, TypingSpeed]
  split <;> refine ⟨?_, ?_, ?_⟩ <;> omega

theorem splitLongChunkPlan_all_delayed (subs : List (List Char)) :
    ∀ e ∈ splitLongChunkPlan true subs,
      e.typing = true ∧ e.delay = calculateTypingDelay e.chunk := by
  induction subs with
  | nil => simp [splitLongChunkPlan]
  | cons s ss ih =>
    intro e he
    rw [splitLongChunkPlan] at he
    rcases List.mem_cons.mp he with rfl | he
    · simp [sendChunkEntry]
    · exact ih e he

theorem sendLongResponsePlanAux_all_delayed (cs : List (List Char)) :
    ∀ e ∈ sendLongResponsePlanAux true cs,
      e.typing = true ∧ e.delay = calculateTypingDelay e.chunk := by
  induction cs with
  | nil => simp [sendLongResponsePlanAux]
  | cons c rest ih =>
    intro e he
    rw [sendLongResponsePlanAux] at he
    rcases List.mem_append.mp he with hl | hr
    · by_cases hc : MaxDiscordMessageLength < c.length
      · rw [if_pos hc] at hl
        exact splitLongChunkPlan_all_delayed (splitLongChunk c) e hl
      · rw [if_neg hc] at hl
        simp only [List.mem_singleton] at hl
        subst hl
        simp [sendChunkEntry]
    · exact ih e hr

/-- C3: for every non-empty chunk sequence, the delivery plan built by
`sendLongResponse` sends the first element with zero artificial delay and no
typing indicator, and every subsequent element with the typing indicator and an
artificial delay equal to `calculateTypingDelay` of that element, which is the
clamp of `MinMessageDelay + len * TypingSpeed / 80` to
`[MinMessageDelay, MaxMessageDelay]`, i.e. to [5000 ms, 8000 ms]. -/
theorem pacing_first_immediate_rest_delayed (chunks : List (List Char))
    (h : chunks ≠ []) :
    ∃ e rest, sendLongResponsePlan chunks = e :: rest ∧
      e.delay = 0 ∧ e.typing = false ∧
      ∀ e' ∈ rest, e'.typing = true ∧
        e'.delay = calculateTypingDelay e'.chunk ∧
        e'.delay = max MinMessageDelay (min MaxMessageDelay
            (MinMessageDelay + e'.chunk.length * TypingSpeed / 80)) ∧
        MinMessageDelay ≤ e'.delay ∧ e'.delay ≤ MaxMessageDelay := by
  have hprops : ∀ e' : PlanEntry, e'.delay = calculateTypingDelay e'.chunk →
      e'.delay = max MinMessageDelay (min MaxMessageDelay
          (MinMessageDelay + e'.chunk.length * TypingSpeed / 80)) ∧
      MinMessageDelay ≤ e'.delay ∧ e'.delay ≤ MaxMessageDelay := by
    intro e' hd
    have hc := calculateTypingDelay_clamp e'.chunk
    rw [hd]
    exact ⟨hc.1, hc.2.1, hc.2.2⟩
  obtain ⟨c, cs, rfl⟩ := List.exists_cons_of_ne_nil h
  rw [sendLongResponsePlan, sendLongResponsePlanAux]
  by_cases hc : MaxDiscordMessageLength < c.length
  · rw [if_pos hc]
    have hcne : c ≠ [] := by
      intro hnil
      rw [hnil] at hc
      simp [MaxDiscordMessageLength] at hc
    rw [splitLongChunk, dif_neg hcne, splitLongChunkPlan]
    refine ⟨sendChunkEntry (c.take MaxDiscordMessageLength) false,
      splitLongChunkPlan true (splitLongChunk (c.drop MaxDiscordMessageLength))
        ++ sendLongResponsePlanAux true cs, by simp, rfl, rfl, ?_⟩
    intro e' he'
    rcases List.mem_append.mp he' with hl | hr
    · have := splitLongChunkPlan_all_delayed _ e' hl
      exact ⟨this.1, this.2, hprops e' this.2⟩
    · have := sendLongResponsePlanAux_all_delayed cs e' hr
      exact ⟨this.1, this.2, hprops e' this.2⟩
  · rw [if_neg hc]
    refine ⟨sendChunkEntry c false, sendLongResponsePlanAux true cs,
      by simp, rfl, rfl, ?_⟩
    intro e' he'
    have := sendLongResponsePlanAux_all_delayed cs e' he'
    exact ⟨this.1, this.2, hprops e' this.2⟩

theorem pacing_first_immediate_rest_delayed_witness :
    ∃ e rest, sendLongResponsePlan [['a'], ['b']] = e :: rest ∧
      e.delay = 0 ∧ e.typing = false ∧
      ∀ e' ∈ rest, e'.typing = true ∧
        e'.delay = calculateTypingDelay e'.chunk ∧
        e'.delay = max MinMessageDelay (min MaxMessageDelay
            (MinMessageDelay + e'.chunk.length * TypingSpeed / 80)) ∧
        MinMessageDelay ≤ e'.delay ∧ e'.delay ≤ MaxMessageDelay :=
  pacing_first_immediate_rest_delayed [['a'], ['b']] (by decide)

/-! ### Short-message shortcut (C4) -/

/-- C4: for every Reply of length at most 500 units, `SuggestMessageBreaks`
returns exactly one chunk equal to the Reply, a nil error, and performs no
provider call — for every possible provider outcome. -/
theorem suggest_short_no_call (pr : Option (List Char)) (msg : List Char)
    (h : msg.length ≤ 500) :
    SuggestMessageBreaks pr msg = ([msg], none, false) := by
  simp [SuggestMessageBreaks, h]

def shortMsg : List Char := "short".toList

theorem suggest_short_no_call_witness :
    shortMsg.length ≤ 500 ∧
    SuggestMessageBreaks none shortMsg = ([shortMsg], none, false) :=
  ⟨by decide, suggest_short_no_call none shortMsg (by decide)⟩

/-! ### Best-effort delivery (C7) -/

theorem runDelivery_trace (sendErr : Nat → Option Unit) (i : Nat)
    (plan : List PlanEntry) :
    (runDelivery sendErr i plan).map Prod.fst = plan.map PlanEntry.chunk := by
  induction plan generalizing i with
  | nil => rfl
  | cons e rest ih => simp [runDelivery, ih]

/-- C7: during delivery, a failed individual send does not abort the remaining
plan: whatever the per-send gateway outcomes are, the pipeline attempts every
chunk of the plan, in order, and the delivery function returns no error value
to its caller. -/
theorem delivery_attempts_all_chunks (sendErr : Nat → Option Unit)
    (chunks : List (List Char)) :
    ((sendLongResponseRun sendErr chunks).1.map Prod.fst
        = (sendLongResponsePlan chunks).map PlanEntry.chunk) ∧
    (sendLongResponseRun sendErr chunks).2 = none :=
  ⟨runDelivery_trace sendErr 0 (sendLongResponsePlan chunks), rfl⟩

/-! ### Empty reply (C8) -/

/-- C8 counterexample: for the empty Reply, segmentation does not yield zero
chunks: both `SuggestMessageBreaks` and `fallbackMessageBreaks` return exactly
one chunk (the empty string), and the resulting delivery plan attempts one
send. -/
theorem empty_reply_zero_chunks_false :
    (SuggestMessageBreaks none []).1.length ≠ 0 ∧
    fallbackMessageBreaks [] ≠ [] ∧
    (sendLongResponsePlan (SuggestMessageBreaks none []).1).length ≠ 0 := by
  refine ⟨?_, ?_, ?_⟩ <;> decide

/-- C8 amended: for the empty Reply, segmentation yields exactly one chunk —
the empty string — regardless of the provider outcome (the length-0 message
takes the short-message path), and the delivery plan schedules that single
empty message for sending. -/
theorem empty_reply_one_empty_chunk (pr : Option (List Char)) :
    SuggestMessageBreaks pr [] = ([[]], none, false) ∧
    fallbackMessageBreaks [] = [[]] ∧
    (sendLongResponsePlan (SuggestMessageBreaks pr []).1).map PlanEntry.chunk
      = [[]] := by
  refine ⟨rfl, rfl, rfl⟩

/-! ### Provider-response parsing (C5) -/

theorem parseMessageBreaks_eq (response orig : List Char) :
    parseMessageBreaks response orig
      = if (keptPieces response).length ≤ 1
        then fallbackMessageBreaks orig
        else keptPieces response := rfl

def c5Response : List Char := "A<<<BREAK>>>B<<<BREAK>>>".toList

/-- C5: `parseMessageBreaks` splits the provider response on the literal
delimiter, trims each piece, drops every piece that is empty or longer than
2000, and returns the fallback splitter's result on the original message when
at most one piece remains; on the response `"A<<<BREAK>>>B<<<BREAK>>>"` it
returns exactly the chunks `"A"` and `"B"`, the trailing empty piece being
dropped. -/
theorem parse_breaks_spec (orig response : List Char) :
    parseMessageBreaks c5Response orig = [['A'], ['B']] ∧
    ((keptPieces response).length ≤ 1 →
      parseMessageBreaks response orig = fallbackMessageBreaks orig) ∧
    (2 ≤ (keptPieces response).length →
      parseMessageBreaks response orig = keptPieces response) ∧
    (∀ c ∈ keptPieces response, c ≠ [] ∧ c.length ≤ 2000) := by
  refine ⟨?_, ?_, ?_, ?_⟩
  · rw [parseMessageBreaks_eq]
    have hk : keptPieces c5Response = [['A'], ['B']] := by decide
    rw [hk, if_neg (by decide)]
  · intro h
    rw [parseMessageBreaks_eq, if_pos h]
  · intro h
    rw [parseMessageBreaks_eq, if_neg (by omega)]
  · intro c hc
    rw [keptPieces] at hc
    have := List.of_mem_filter hc
    simp only [Bool.and_eq_true, decide_eq_true_eq] at this
    exact this

theorem parse_breaks_spec_witness :
    parseMessageBreaks [] ['x'] = fallbackMessageBreaks ['x'] ∧
    parseMessageBreaks c5Response ['x'] = keptPieces c5Response :=
  ⟨(parse_breaks_spec ['x'] []).2.1 (by decide),
   (parse_breaks_spec ['x'] c5Response).2.2.1 (by decide)⟩

/-! ### No hard failure from segmentation (C6) -/

/-- C6: `SuggestMessageBreaks` never propagates a hard failure: for every
input message and every provider outcome the returned error is nil, and
whenever the provider path fails — the call errors out (`none` outcome), or its
response parses to at most one kept piece — the fallback splitter's output on
the original message is returned instead. -/
theorem suggest_never_fails (pr : Option (List Char)) (msg : List Char) :
    (SuggestMessageBreaks pr msg).2.1 = none ∧
    (500 < msg.length →
      (SuggestMessageBreaks none msg).1 = fallbackMessageBreaks msg) ∧
    (∀ r, 500 < msg.length → (keptPieces r).length ≤ 1 →
      (SuggestMessageBreaks (some r) msg).1 = fallbackMessageBreaks msg) := by
  refine ⟨?_, ?_, ?_⟩
  · by_cases h : msg.length ≤ 500
    · simp [SuggestMessageBreaks, h]
    · rcases pr with _ | r <;> simp [SuggestMessageBreaks, h]
  · intro h
    have h' : ¬ msg.length ≤ 500 := by omega
    simp [SuggestMessageBreaks, h']
  · intro r h hkept
    have h' : ¬ msg.length ≤ 500 := by omega
    simp only [SuggestMessageBreaks, h', if_false]
    rw [parseMessageBreaks_eq, if_pos hkept]

def msg501 : List Char := List.replicate 501 'a'

theorem suggest_never_fails_witness :
    (SuggestMessageBreaks none msg501).1 = fallbackMessageBreaks msg501 ∧
    (SuggestMessageBreaks (some []) msg501).1 = fallbackMessageBreaks msg501 :=
  ⟨(suggest_never_fails none msg501).2.1 (by decide),
   (suggest_never_fails (some []) msg501).2.2 [] (by decide) (by decide)⟩

/-! ### Trimming machinery -/

/-- A string is clean at the ends when neither its first nor its last
character is white space (so `trimSpace` leaves it unchanged). -/
def cleanEnds (l : List Char) : Prop :=
  (∀ a, l.head? = some a → isGoSpace a = false) ∧
  (∀ a, l.getLast? = some a → isGoSpace a = false)

theorem cleanEnds_nil : cleanEnds [] := by
  constructor <;> intro a h <;> simp at h

theorem trimLeft_eq_self {l : List Char}
    (h : ∀ a, l.head? = some a → isGoSpace a = false) : trimLeft l = l := by
  cases l with
  | nil => rfl
  | cons c t =>
    have hc := h c rfl
    simp [trimLeft, List.dropWhile_cons, hc]

theorem trimRight_eq_self {l : List Char}
    (h : ∀ a, l.getLast? = some a → isGoSpace a = false) : trimRight l = l := by
  have hdrop : l.reverse.dropWhile isGoSpace = l.reverse := by
    cases hrev : l.reverse with
    | nil => simp
    | cons c t =>
      have hc : l.getLast? = some c := by
        rw [← List.head?_reverse, hrev]
        rfl
      simp [List.dropWhile_cons, h c hc]
  rw [trimRight, hdrop, List.reverse_reverse]

theorem trimSpace_eq_self {l : List Char} (h : cleanEnds l) : trimSpace l = l := by
  rw [trimSpace, trimLeft_eq_self h.1, trimRight_eq_self h.2]

theorem trimLeft_suffix (l : List Char) : ∃ s, s ++ trimLeft l = l :=
  List.dropWhile_suffix isGoSpace

theorem trimRight_front (l : List Char) : ∃ t, trimRight l ++ t = l := by
  obtain ⟨u, hu⟩ := List.dropWhile_suffix (l := l.reverse) isGoSpace
  refine ⟨u.reverse, ?_⟩
  have := congrArg List.reverse hu
  simpa [trimRight] using this

theorem trimSpace_split (l : List Char) :
    ∃ s t, s ++ trimSpace l ++ t = l := by
  obtain ⟨s, hs⟩ := trimLeft_suffix l
  obtain ⟨t, ht⟩ := trimRight_front (trimLeft l)
  refine ⟨s, t, ?_⟩
  show s ++ trimRight (trimLeft l) ++ t = l
  rw [List.append_assoc, ht, hs]

theorem trimSpace_part (l : List Char) : trimSpace l <:+: l := by
  obtain ⟨s, t, h⟩ := trimSpace_split l
  exact ⟨s, t, h⟩

theorem length_dropWhile_le (p : Char → Bool) (l : List Char) :
    (l.dropWhile p).length ≤ l.length :=
  List.Sublist.length_le (List.dropWhile_sublist p)

theorem trimSpace_length_le (l : List Char) :
    (trimSpace l).length ≤ l.length := by
  have h1 : (trimSpace l).length ≤ (trimLeft l).length := by
    show (((trimLeft l).reverse.dropWhile isGoSpace).reverse).length
      ≤ (trimLeft l).length
    rw [List.length_reverse]
    calc ((trimLeft l).reverse.dropWhile isGoSpace).length
        ≤ (trimLeft l).reverse.length := length_dropWhile_le _ _
      _ = (trimLeft l).length := by rw [List.length_reverse]
  have h2 : (trimLeft l).length ≤ l.length := length_dropWhile_le _ _
  omega

theorem cleanEnds_trimSpace (l : List Char) : cleanEnds (trimSpace l) := by
  constructor
  · intro a ha
    obtain ⟨t, ht⟩ := trimRight_front (trimLeft l)
    have hleft : (trimLeft l).head? = some a := by
      rw [← ht, List.head?_append,
        show (trimRight (trimLeft l)).head? = some a from ha]
      rfl
    have hd := List.head?_dropWhile_not isGoSpace l
    rw [show (trimLeft l).head? = (l.dropWhile isGoSpace).head? from rfl] at hleft
    rw [hleft] at hd
    exact hd
  · intro a ha
    have hgl : (trimSpace l).getLast?
        = ((trimLeft l).reverse.dropWhile isGoSpace).head? := by
      rw [trimSpace, trimRight, List.getLast?_reverse]
    rw [hgl] at ha
    have hd := List.head?_dropWhile_not isGoSpace (trimLeft l).reverse
    rw [ha] at hd
    exact hd

theorem cleanEnds_append {a b : List Char} (mid : List Char)
    (ha : cleanEnds a) (hb : cleanEnds b) (hna : a ≠ []) (hnb : b ≠ []) :
    cleanEnds (a ++ mid ++ b) := by
  constructor
  · intro x hx
    obtain ⟨c, t, rfl⟩ := List.exists_cons_of_ne_nil hna
    simp only [List.cons_append, List.head?_cons, Option.some.injEq] at hx
    exact hx ▸ ha.1 c rfl
  · intro x hx
    obtain ⟨y, hy⟩ : ∃ y, b.getLast? = some y := by
      cases hbl : b.getLast? with
      | none => exact absurd (List.getLast?_eq_none_iff.mp hbl) hnb
      | some y => exact ⟨y, rfl⟩
    rw [List.getLast?_append, hy] at hx
    simp only [Option.or_some, Option.some.injEq] at hx
    exact hx ▸ hb.2 y hy

/-! ### Joining with the paragraph separator -/

theorem joinSep_cons₂ (c : List Char) {cs : List (List Char)} (h : cs ≠ []) :
    joinSep (c :: cs) = c ++ doubleNewline ++ joinSep cs := by
  cases cs with
  | nil => exact absurd rfl h
  | cons d ds => rfl

theorem joinSep_append {A : List (List Char)} (B : List (List Char)) (hB : B ≠ []) :
    joinSep (A ++ B)
      = if A = [] then joinSep B else joinSep A ++ doubleNewline ++ joinSep B := by
  induction A with
  | nil => simp
  | cons a A' ih =>
    rw [List.cons_append]
    have hAB : A' ++ B ≠ [] := by
      intro hc
      exact hB (List.append_eq_nil.mp hc).2
    rw [joinSep_cons₂ a hAB]
    by_cases hA' : A' = []
    · subst hA'
      simp [joinSep]
    · rw [ih, if_neg hA', if_neg (by simp), joinSep_cons₂ a hA']
      simp [List.append_assoc]

theorem joinSep_merge (A X : List (List Char)) (u v : List Char) :
    joinSep (A ++ [u ++ doubleNewline ++ v] ++ X)
      = joinSep (A ++ [u] ++ v :: X) := by
  have hinner : joinSep ([u ++ doubleNewline ++ v] ++ X)
      = joinSep ([u] ++ v :: X) := by
    cases X with
    | nil => rfl
    | cons x xs =>
      rw [List.singleton_append, List.singleton_append,
        joinSep_cons₂ (u ++ doubleNewline ++ v) (by simp),
        joinSep_cons₂ u (by simp), joinSep_cons₂ v (by simp)]
      simp [List.append_assoc]
  have h1 : ([u ++ doubleNewline ++ v] ++ X) ≠ [] := by simp
  have h2 : ([u] ++ v :: X) ≠ [] := by simp
  have e1 := List.append_assoc A [u ++ doubleNewline ++ v] X
  have e2 := List.append_assoc A [u] (v :: X)
  rw [e1, e2, joinSep_append _ h1, joinSep_append _ h2, hinner]

/-! ### Fallback splitter: separator-normalised losslessness (C2) -/

/-- Specification-side: the whitespace-trimmed non-empty members of a
paragraph list, in order. -/
def goodOf (ps : List (List Char)) : List (List Char) :=
  (ps.map trimSpace).filter fun p => decide (p ≠ [])

theorem goodParas_eq_goodOf (msg : List Char) :
    goodParas msg = goodOf (splitParagraphs msg) := rfl

theorem fb_fold_join (ps : List (List Char)) :
    ∀ chunks cur, cleanEnds cur → (cur = [] → chunks = []) →
      joinSep (withCur (ps.foldl fbStep (chunks, cur)).1
          (ps.foldl fbStep (chunks, cur)).2)
        = joinSep (withCur chunks cur ++ goodOf ps) := by
  induction ps with
  | nil =>
    intro chunks cur _ _
    simp [goodOf]
  | cons q qs ih =>
    intro chunks cur hclean hnil
    rw [List.foldl_cons]
    by_cases hp : trimSpace q = []
    · have hstep : fbStep (chunks, cur) q = (chunks, cur) := by
        simp [fbStep, hp]
      have hgood : goodOf (q :: qs) = goodOf qs := by
        simp [goodOf, hp]
      rw [hstep, hgood]
      exact ih chunks cur hclean hnil
    · have hpc : cleanEnds (trimSpace q) := cleanEnds_trimSpace q
      have hgood : goodOf (q :: qs) = trimSpace q :: goodOf qs := by
        simp [goodOf, hp]
      by_cases hcur : cur = []
      · subst hcur
        have hch : chunks = [] := hnil rfl
        subst hch
        have hstep : fbStep ([], []) q = ([], trimSpace q) := by
          simp [fbStep, hp]
        rw [hstep, ih [] (trimSpace q) hpc (fun h => absurd h hp), hgood]
        simp [withCur, hp, trimSpace_eq_self hpc]
      · by_cases hov : 800 < cur.length + (trimSpace q).length + 2
        · have hstep : fbStep (chunks, cur) q
              = (chunks ++ [trimSpace cur], trimSpace q) := by
            simp [fbStep, hp, hcur, hov]
          rw [hstep,
            ih (chunks ++ [trimSpace cur]) (trimSpace q) hpc (fun h => absurd h hp),
            hgood]
          simp [withCur, hp, hcur, trimSpace_eq_self hpc, List.append_assoc]
        · have hstep : fbStep (chunks, cur) q
              = (chunks, cur ++ doubleNewline ++ trimSpace q) := by
            simp [fbStep, hp, hcur, hov]
          have happ : cur ++ doubleNewline ++ trimSpace q ≠ [] := by
            simp [hcur]
          have hcl : cleanEnds (cur ++ doubleNewline ++ trimSpace q) :=
            cleanEnds_append doubleNewline hclean hpc hcur hp
          rw [hstep, ih chunks _ hcl (fun h => absurd h happ), hgood]
          show joinSep (withCur chunks (cur ++ doubleNewline ++ trimSpace q)
              ++ goodOf qs)
            = joinSep (withCur chunks cur ++ trimSpace q :: goodOf qs)
          rw [withCur, withCur, if_pos happ, if_pos hcur,
            trimSpace_eq_self hcl, trimSpace_eq_self hclean]
          exact joinSep_merge chunks (goodOf qs) cur (trimSpace q)

/-- C2: the fallback splitter returns chunks whose content reproduces the
Reply modulo separator normalisation: when it returns two or more chunks,
joining them with the double-newline separator equals joining the Reply's
whitespace-trimmed non-empty paragraphs with that separator (so paragraph
order is preserved); when it returns one chunk, that chunk is the original
Reply unchanged. -/
theorem fallback_lossless (msg : List Char) :
    (2 ≤ (fallbackMessageBreaks msg).length →
      joinSep (fallbackMessageBreaks msg) = joinSep (goodParas msg)) ∧
    ((fallbackMessageBreaks msg).length = 1 →
      fallbackMessageBreaks msg = [msg]) := by
  have hfold := fb_fold_join (splitParagraphs msg) [] [] cleanEnds_nil
    (fun _ => rfl)
  have hw : withCur ([] : List (List Char)) [] = [] := rfl
  rw [hw, List.nil_append, ← goodParas_eq_goodOf] at hfold
  set st := (splitParagraphs msg).foldl fbStep ([], []) with hst
  have hfb : fallbackMessageBreaks msg
      = if (withCur st.1 st.2).length ≤ 1 then [msg] else withCur st.1 st.2 := rfl
  constructor
  · intro h2
    rw [hfb] at h2 ⊢
    by_cases hle : (withCur st.1 st.2).length ≤ 1
    · rw [if_pos hle] at h2
      simp at h2
    · rw [if_neg hle]
      exact hfold
  · intro h1
    rw [hfb] at h1 ⊢
    by_cases hle : (withCur st.1 st.2).length ≤ 1
    · rw [if_pos hle]
    · rw [if_neg hle] at h1
      exact absurd h1 (by omega)

def c2Input : List Char :=
  List.replicate 500 'a' ++ '\n' :: '\n' :: List.replicate 500 'b'

theorem fallback_lossless_witness :
    2 ≤ (fallbackMessageBreaks c2Input).length ∧
    joinSep (fallbackMessageBreaks c2Input) = joinSep (goodParas c2Input) ∧
    (fallbackMessageBreaks ['h', 'i']).length = 1 ∧
    fallbackMessageBreaks ['h', 'i'] = [['h', 'i']] := by
  have h2 : 2 ≤ (fallbackMessageBreaks c2Input).length := by decide
  have h1 : (fallbackMessageBreaks ['h', 'i']).length = 1 := by decide
  exact ⟨h2, (fallback_lossless c2Input).1 h2, h1,
    (fallback_lossless ['h', 'i']).2 h1⟩

/-! ### Fallback splitter without separators (C9) -/

theorem splitNN_no_sep : ∀ (s acc : List Char), ¬ doubleNewline <:+: s →
    splitNN s acc = [acc.reverse ++ s]
  | [], acc, _ => by simp [splitNN]
  | [c], acc, _ => by simp [splitNN]
  | c₁ :: c₂ :: rest, acc, h => by
    have hcc : ¬(c₁ = '\n' ∧ c₂ = '\n') := by
      rintro ⟨rfl, rfl⟩
      exact h ⟨[], rest, by simp [doubleNewline]⟩
    have hrest : ¬ doubleNewline <:+: (c₂ :: rest) := by
      rintro ⟨s₁, t₁, hst⟩
      refine h ⟨c₁ :: s₁, t₁, ?_⟩
      simp only [List.cons_append]
      rw [hst]
    simp only [splitNN]
    rw [if_neg hcc, splitNN_no_sep (c₂ :: rest) (c₁ :: acc) hrest]
    simp

/-- C9: for every input string that contains no double-newline separator, the
fallback splitter returns a single-element sequence whose sole element is
exactly the input, unaltered. -/
theorem fallback_no_sep_identity (msg : List Char)
    (h : ¬ doubleNewline <:+: msg) :
    fallbackMessageBreaks msg = [msg] := by
  have hs : splitParagraphs msg = [msg] := by
    rw [splitParagraphs, splitNN_no_sep msg [] h]
    simp
  simp only [fallbackMessageBreaks, hs, List.foldl_cons, List.foldl_nil]
  by_cases hp : trimSpace msg = []
  · have hstep : fbStep ([], []) msg = ([], []) := by simp [fbStep, hp]
    rw [hstep]
    simp [withCur]
  · have hstep : fbStep ([], []) msg = ([], trimSpace msg) := by simp [fbStep, hp]
    rw [hstep]
    simp [withCur, hp]

def c9Input : List Char := "hello".toList

theorem fallback_no_sep_identity_witness :
    ¬ (doubleNewline <:+: c9Input) ∧ fallbackMessageBreaks c9Input = [c9Input] :=
  ⟨by decide, fallback_no_sep_identity c9Input (by decide)⟩

/-! ### Soft 800-unit target of the fallback splitter (C10) -/

theorem noNN_append_one {u : List Char} {c : Char}
    (hu : ¬ doubleNewline <:+: u)
    (hb : ∀ a, u.getLast? = some a → ¬(a = '\n' ∧ c = '\n')) :
    ¬ doubleNewline <:+: (u ++ [c]) := by
  rintro ⟨s, t, hst⟩
  rcases t.eq_nil_or_concat with rfl | ⟨t', d, rfl⟩
  · rw [List.append_nil] at hst
    have hst' : (s ++ ['\n']) ++ ['\n'] = u ++ [c] := by
      rw [List.append_assoc]
      exact hst
    obtain ⟨h1, h2⟩ := List.append_inj' hst' rfl
    have hc : c = '\n' := by
      injection h2 with h2' _
      exact h2'.symm
    have hlast : u.getLast? = some '\n' := by
      rw [← h1]
      simp
    exact hb '\n' hlast ⟨rfl, hc⟩
  · rw [List.concat_eq_append] at hst
    have hst' : ((s ++ doubleNewline) ++ t') ++ [d] = u ++ [c] := by
      rw [List.append_assoc]
      exact hst
    obtain ⟨h1, _⟩ := List.append_inj' hst' rfl
    exact hu ⟨s, t', h1⟩

theorem splitNN_pieces : ∀ (s acc : List Char),
    (¬ doubleNewline <:+: acc.reverse) →
    (∀ a b, acc.head? = some a → s.head? = some b → ¬(a = '\n' ∧ b = '\n')) →
    ∀ piece ∈ splitNN s acc, ¬ doubleNewline <:+: piece
  | [], acc, hacc, _ => by
    intro piece hp
    simp only [splitNN, List.mem_singleton] at hp
    subst hp
    exact hacc
  | [c], acc, hacc, hbd => by
    intro piece hp
    simp only [splitNN, List.mem_singleton] at hp
    subst hp
    rw [List.reverse_cons]
    refine noNN_append_one hacc ?_
    intro a ha
    rw [List.getLast?_reverse] at ha
    exact hbd a c ha rfl
  | c₁ :: c₂ :: rest, acc, hacc, hbd => by
    intro piece hp
    simp only [splitNN] at hp
    by_cases hcc : c₁ = '\n' ∧ c₂ = '\n'
    · rw [if_pos hcc] at hp
      rcases List.mem_cons.mp hp with rfl | hp
      · exact hacc
      · refine splitNN_pieces rest [] ?_ ?_ piece hp
        · rintro ⟨s', t', hst⟩
          simp [doubleNewline] at hst
        · intro a b ha
          simp at ha
    · rw [if_neg hcc] at hp
      refine splitNN_pieces (c₂ :: rest) (c₁ :: acc) ?_ ?_ piece hp
      · rw [List.reverse_cons]
        refine noNN_append_one hacc ?_
        intro a ha
        rw [List.getLast?_reverse] at ha
        exact hbd a c₁ ha rfl
      · intro a b ha hb'
        simp only [List.head?_cons, Option.some.injEq] at ha hb'
        subst ha
        subst hb'
        exact hcc

theorem splitParagraphs_pieces (msg : List Char) :
    ∀ piece ∈ splitParagraphs msg, ¬ doubleNewline <:+: piece := by
  refine splitNN_pieces msg [] ?_ ?_
  · rintro ⟨s', t', hst⟩
    simp [doubleNewline] at hst
  · intro a b ha
    simp at ha

theorem fb_fold_soft (ps : List (List Char)) :
    ∀ chunks cur,
      (∀ q ∈ ps, ¬ doubleNewline <:+: trimSpace q) →
      (∀ c ∈ chunks, doubleNewline <:+: c → c.length ≤ 800) →
      (doubleNewline <:+: cur → cur.length ≤ 800) →
      ∀ c ∈ withCur (ps.foldl fbStep (chunks, cur)).1
          (ps.foldl fbStep (chunks, cur)).2,
        doubleNewline <:+: c → c.length ≤ 800 := by
  induction ps with
  | nil =>
    intro chunks cur _ hchunks hcur c hc
    rw [List.foldl_nil, withCur] at hc
    split at hc
    · rcases List.mem_append.mp hc with hm | hm
      · exact hchunks c hm
      · simp only [List.mem_singleton] at hm
        subst hm
        intro hinf
        have hb := hcur (hinf.trans (trimSpace_part cur))
        have hle := trimSpace_length_le cur
        omega
    · exact hchunks c hc
  | cons q qs ih =>
    intro chunks cur hps hchunks hcur
    have hq : ¬ doubleNewline <:+: trimSpace q := hps q (by simp)
    have hqs : ∀ r ∈ qs, ¬ doubleNewline <:+: trimSpace r := by
      intro r hr
      exact hps r (by simp [hr])
    rw [List.foldl_cons]
    by_cases hp : trimSpace q = []
    · have hstep : fbStep (chunks, cur) q = (chunks, cur) := by simp [fbStep, hp]
      rw [hstep]
      exact ih chunks cur hqs hchunks hcur
    · by_cases hcurnil : cur = []
      · subst hcurnil
        have hstep : fbStep (chunks, []) q = (chunks, trimSpace q) := by
          simp [fbStep, hp]
        rw [hstep]
        exact ih chunks (trimSpace q) hqs hchunks (fun hinf => absurd hinf hq)
      · by_cases hov : 800 < cur.length + (trimSpace q).length + 2
        · have hstep : fbStep (chunks, cur) q
              = (chunks ++ [trimSpace cur], trimSpace q) := by
            simp [fbStep, hp, hcurnil, hov]
          rw [hstep]
          refine ih (chunks ++ [trimSpace cur]) (trimSpace q) hqs ?_
            (fun hinf => absurd hinf hq)
          intro c hc
          rcases List.mem_append.mp hc with hm | hm
          · exact hchunks c hm
          · simp only [List.mem_singleton] at hm
            subst hm
            intro hinf
            have hb := hcur (hinf.trans (trimSpace_part cur))
            have hle := trimSpace_length_le cur
            omega
        · have hstep : fbStep (chunks, cur) q
              = (chunks, cur ++ doubleNewline ++ trimSpace q) := by
            simp [fbStep, hp, hcurnil, hov]
          rw [hstep]
          refine ih chunks (cur ++ doubleNewline ++ trimSpace q) hqs hchunks ?_
          intro _
          have h1 : (cur ++ doubleNewline ++ trimSpace q).length
              = cur.length + doubleNewline.length + (trimSpace q).length := by
            simp [Nat.add_assoc]
          have h2 : doubleNewline.length = 2 := rfl
          omega

/-- C10 amended: on the multi-chunk path — whenever the fallback splitter
returns two or more chunks — every produced chunk that contains more than one
paragraph (that is, contains the double-newline separator) has length at most
800, because a paragraph is appended to a non-empty running chunk only when
current length + paragraph length + 2 does not exceed 800.  (The single-chunk
path returns the raw original message, which may be longer; see the
counterexample.) -/
theorem fallback_soft_target (msg : List Char)
    (h2 : 2 ≤ (fallbackMessageBreaks msg).length) :
    ∀ c ∈ fallbackMessageBreaks msg,
      doubleNewline <:+: c → c.length ≤ 800 := by
  have hps : ∀ q ∈ splitParagraphs msg, ¬ doubleNewline <:+: trimSpace q := by
    intro q hq hinf
    exact splitParagraphs_pieces msg q hq (hinf.trans (trimSpace_part q))
  have hnil : ¬ doubleNewline <:+: ([] : List Char) := by
    rintro ⟨s', t', hst⟩
    simp [doubleNewline] at hst
  have hall := fb_fold_soft (splitParagraphs msg) [] [] hps (by simp)
    (fun hinf => absurd hinf hnil)
  set st := (splitParagraphs msg).foldl fbStep ([], []) with hstdef
  have hfb : fallbackMessageBreaks msg
      = if (withCur st.1 st.2).length ≤ 1 then [msg] else withCur st.1 st.2 := rfl
  rw [hfb] at h2 ⊢
  by_cases hle : (withCur st.1 st.2).length ≤ 1
  · rw [if_pos hle] at h2
    simp at h2
  · rw [if_neg hle]
    exact hall

theorem fallback_soft_target_witness :
    2 ≤ (fallbackMessageBreaks c2Input).length ∧
    ∀ c ∈ fallbackMessageBreaks c2Input,
      doubleNewline <:+: c → c.length ≤ 800 := by
  have h2 : 2 ≤ (fallbackMessageBreaks c2Input).length := by decide
  exact ⟨h2, fallback_soft_target c2Input h2⟩

def c10Input : List Char :=
  List.replicate 801 ' ' ++ ['a'] ++ doubleNewline ++ ['b']

/-- C10 counterexample: the claim fails as stated on the single-chunk path.
On this 805-unit message the splitter returns one chunk equal to the raw
original message, which contains the double-newline separator (more than one
paragraph) and exceeds 800 units. -/
theorem fallback_soft_target_counterexample :
    fallbackMessageBreaks c10Input = [c10Input] ∧
    doubleNewline <:+: c10Input ∧
    800 < c10Input.length := by
  refine ⟨by decide, ⟨List.replicate 801 ' ' ++ ['a'], ['b'], rfl⟩, by decide⟩
